import Mathlib

set_option maxHeartbeats 1000000

/-!
Shallow embedding of the panoptikon media-indexing engine's core algorithms,
together with theorems checking the natural-language specification against
the code.

Python floats are modelled as exact rationals (`ℚ`) where the code only adds,
subtracts, compares and halves, and as reals (`ℝ`) where SQL `POW` with a
fractional exponent appears.  Python exceptions are modelled with `Option`:
`none` is an uncaught exception.
-/

namespace Panoptikon

namespace Tags

/-! ## `src/data_extractors/data_handlers/tags.py` -/

/-- Insert one element into a descending-sorted list, keeping it sorted. -/
def insertDesc (x : ℚ) : List ℚ → List ℚ
  | [] => [x]
  | y :: ys => if y ≤ x then x :: y :: ys else y :: insertDesc x ys

/-- `probs[probs.argsort()[::-1]]`: the multiset of values arranged in
descending order. -/
def sortDesc (l : List ℚ) : List ℚ := l.foldr insertDesc []

/-- `np.argmax`: index of the first occurrence of the maximum value;
`none` models the `ValueError` numpy raises on an empty array. -/
def argmaxIdx : List ℚ → Option Nat
  | [] => none
  | x :: xs =>
    match argmaxIdx xs with
    | none => some 0
    | some t => if x < xs.getD t 0 then some (t + 1) else some 0

/-- The adjacent-difference array `sorted_probs[:-1] - sorted_probs[1:]`. -/
def difsOf (p : List ℚ) : List ℚ :=
  List.zipWith (fun a b => a - b) p p.tail

/-- `mcut_threshold` (Maximum Cut Thresholding): sort the probabilities in
descending order, take adjacent differences, locate the largest difference,
return the midpoint of the two probabilities around it.  `none` models the
`ValueError` raised by `difs.argmax()` when `difs` is empty. -/
def mcut_threshold (probs : List ℚ) : Option ℚ :=
  match argmaxIdx (difsOf (sortDesc probs)) with
  | none => none
  | some t =>
    some (((sortDesc probs).getD t 0 + (sortDesc probs).getD (t + 1) 0) / 2)

/-- Python `max(d.items(), key=lambda x: x[1])`: the first pair with maximal
score (a dict iterates in insertion order); `none` models the `ValueError`
raised on an empty dict. -/
def maxByScore : List (String × ℚ) → Option (String × ℚ)
  | [] => none
  | p :: ps =>
    match maxByScore ps with
    | none => some p
    | some q => if p.2 < q.2 then some q else some p

/-- `severity_map.get(label, 0)` where
`severity_map = {label: index for index, label in enumerate(severity_order)}`:
the index of the last occurrence of `label` in `severity_order`, or 0 when
the label does not occur. -/
def severityRank (severity_order : List String) (label : String) : Nat :=
  (List.range severity_order.length).foldl
    (fun acc i => if severity_order.getD i "" = label then i else acc) 0

/-- The body of the `get_rating` loop: replace the accumulated
`(final_rating, final_score)` by the sample's top rating when the latter has
strictly larger severity rank, or equal severity rank and strictly larger
score (`final_rating is None` always gets replaced). -/
def ratingStep (sev : List String) (acc : Option (String × ℚ))
    (rs : String × ℚ) : Option (String × ℚ) :=
  match acc with
  | none => some rs
  | some fr =>
    if severityRank sev rs.1 > severityRank sev fr.1
        ∨ (severityRank sev rs.1 = severityRank sev fr.1 ∧ rs.2 > fr.2)
    then some rs else some fr

/-- The loop of `get_rating`: `acc` is the current
`(final_rating, final_score)` (with `none` for the initial
`final_rating is None` state); the outer `none` models a raised
`ValueError` from `max()` on an empty per-sample dict. -/
def get_rating_loop (sev : List String) :
    Option (String × ℚ) → List (List (String × ℚ)) → Option (Option (String × ℚ))
  | acc, [] => some acc
  | acc, result :: rest =>
    match maxByScore result with
    | none => none
    | some rs => get_rating_loop sev (ratingStep sev acc rs) rest

/-- `get_rating`: for each sample take the highest-score rating, and keep,
across samples, the one with the larger severity rank (then larger score).
`none` models the exception paths (`max()` on an empty dict, or the final
`assert final_rating is not None` with no samples at all). -/
def get_rating (tags : List (List (String × ℚ))) (severity_order : List String) :
    Option (String × ℚ) :=
  match get_rating_loop severity_order none tags with
  | none => none
  | some none => none
  | some (some r) => some r

/-- The confidences of the general-namespace tags,
`[confidence for ns, _, confidence in tags if ns == "general"]`. -/
def generalConfs (tags : List (String × String × ℚ)) : List ℚ :=
  (tags.filter (fun t => t.1 = "general")).map (fun t => t.2.2)

/-- One row written through `insert_extracted_text` by `handle_tag_result`. -/
structure TextRow where
  data_index : Nat
  text : String
  language : String
  language_confidence : ℚ
  confidence : ℚ
deriving DecidableEq, Repr

/-- The extracted-text rows written by `handle_tag_result` after the per-tag
inserts, given the aggregated tag list `tags` of
`(namespace, tag, confidence)` triples.  `none` models an uncaught
exception (`min([])` on an empty tag list, or `mcut_threshold` on a
length-1 difference-free array). -/
def handle_tag_result_rows (main_namespace : String)
    (tags : List (String × String × ℚ)) : Option (List TextRow) :=
  match tags.map (fun t => t.2.2) with
  | [] => none
  | c :: cs =>
    let min_confidence := cs.foldl min c
    let all_tags_string := String.intercalate ", " (tags.map (fun t => t.2.1))
    let row0 : TextRow :=
      ⟨0, all_tags_string, main_namespace, 1, min_confidence⟩
    let general := generalConfs tags
    if general.isEmpty then some [row0]
    else
      match mcut_threshold general with
      | none => none
      | some m_thresh =>
        let mcut_tags_string := String.intercalate ", "
          ((tags.filter (fun t => m_thresh ≤ t.2.2 ∨ t.1 ≠ "general")).map
            (fun t => t.2.1))
        some [row0, ⟨1, mcut_tags_string, main_namespace ++ "-mcut", 1, m_thresh⟩]

/-- The input probabilities are sorted in descending order. -/
def SortedDesc (p : List ℚ) : Prop := p.Pairwise (fun a b => b ≤ a)

instance (p : List ℚ) : Decidable (SortedDesc p) := List.instDecidablePairwise p

lemma insertDesc_of_forall_le (x : ℚ) (xs : List ℚ) (h : ∀ y ∈ xs, y ≤ x) :
    insertDesc x xs = x :: xs := by
  cases xs with
  | nil => rfl
  | cons y ys => simp [insertDesc, h y (List.mem_cons_self y ys)]

lemma sortDesc_eq_self (p : List ℚ) (h : SortedDesc p) : sortDesc p = p := by
  induction p with
  | nil => rfl
  | cons x xs ih =>
    have h' := List.pairwise_cons.mp h
    show insertDesc x (sortDesc xs) = x :: xs
    rw [ih h'.2]
    exact insertDesc_of_forall_le x xs h'.1

lemma argmaxIdx_eq_none_iff (l : List ℚ) : argmaxIdx l = none ↔ l = [] := by
  cases l with
  | nil => simp [argmaxIdx]
  | cons x xs =>
    refine ⟨fun h => ?_, fun h => by cases h⟩
    exfalso
    rw [argmaxIdx] at h
    cases hxs : argmaxIdx xs with
    | none => rw [hxs] at h; simp at h
    | some u =>
      rw [hxs] at h
      split at h
      · exact Option.noConfusion h
      · split at h <;> exact Option.noConfusion h

lemma argmaxIdx_sound (l : List ℚ) (t : Nat) (h : argmaxIdx l = some t) :
    t < l.length ∧ (∀ i, i < l.length → l.getD i 0 ≤ l.getD t 0) ∧
      (∀ s, s < t → l.getD s 0 < l.getD t 0) := by
  induction l generalizing t with
  | nil => simp [argmaxIdx] at h
  | cons x xs ih =>
    rw [argmaxIdx] at h
    cases hxs : argmaxIdx xs with
    | none =>
      rw [hxs] at h
      simp only [Option.some.injEq] at h
      subst h
      have hnil : xs = [] := (argmaxIdx_eq_none_iff xs).mp hxs
      subst hnil
      refine ⟨by simp, ?_, fun s hs => absurd hs (Nat.not_lt_zero s)⟩
      intro i hi
      simp only [List.length_cons, List.length_nil] at hi
      have hi0 : i = 0 := by omega
      subst hi0
      simp
    | some u =>
      rw [hxs] at h
      obtain ⟨hu1, hu2, hu3⟩ := ih u hxs
      by_cases hc : x < xs.getD u 0
      · simp only [if_pos hc, Option.some.injEq] at h
        subst h
        refine ⟨by simpa using Nat.succ_lt_succ hu1, ?_, ?_⟩
        · intro i hi
          cases i with
          | zero => simpa using le_of_lt hc
          | succ j =>
            simp only [List.getD_cons_succ]
            exact hu2 j (by simpa using hi)
        · intro s hs
          cases s with
          | zero => simpa using hc
          | succ j =>
            simp only [List.getD_cons_succ]
            exact hu3 j (by omega)
      · simp only [if_neg hc, Option.some.injEq] at h
        subst h
        refine ⟨by simp, ?_, fun s hs => absurd hs (Nat.not_lt_zero s)⟩
        intro i hi
        cases i with
        | zero => simp
        | succ j =>
          simp only [List.getD_cons_succ, List.getD_cons_zero]
          exact le_trans (hu2 j (by simpa using hi)) (not_lt.mp hc)

lemma length_difsOf (p : List ℚ) : (difsOf p).length = p.length - 1 := by
  rw [difsOf, List.length_zipWith, List.length_tail]
  omega

lemma difsOf_getD (p : List ℚ) (i : Nat) (hi : i + 1 < p.length) :
    (difsOf p).getD i 0 = p.getD i 0 - p.getD (i + 1) 0 := by
  have hlen : i < (difsOf p).length := by rw [length_difsOf]; omega
  have htail : i < p.tail.length := by simp [List.length_tail]; omega
  rw [List.getD_eq_getElem _ _ hlen, List.getD_eq_getElem _ _ (by omega),
    List.getD_eq_getElem _ _ hi]
  simp only [difsOf, List.getElem_zipWith]
  congr 1
  rw [List.getElem_tail]

lemma getD_eq_of_all_eq {p : List ℚ} {c : ℚ} (hall : ∀ x ∈ p, x = c)
    {i : Nat} (hi : i < p.length) : p.getD i 0 = c := by
  rw [List.getD_eq_getElem _ _ hi]
  exact hall _ (p.getElem_mem hi)

/-- C2: for a descending-sorted probability list of length at least 2,
`mcut_threshold` returns the midpoint of the two probabilities around the
first largest adjacent gap; the threshold is strictly between them when the
gap is nonzero, and equals the common value when the list is constant. -/
theorem mcut_threshold_spec (p : List ℚ) (h2 : 2 ≤ p.length) (hs : SortedDesc p) :
    ∃ t, t + 1 < p.length ∧
      (∀ i, i + 1 < p.length →
        p.getD i 0 - p.getD (i + 1) 0 ≤ p.getD t 0 - p.getD (t + 1) 0) ∧
      (∀ s, s < t →
        p.getD s 0 - p.getD (s + 1) 0 < p.getD t 0 - p.getD (t + 1) 0) ∧
      mcut_threshold p = some ((p.getD t 0 + p.getD (t + 1) 0) / 2) ∧
      (p.getD (t + 1) 0 < p.getD t 0 →
        p.getD (t + 1) 0 < (p.getD t 0 + p.getD (t + 1) 0) / 2 ∧
          (p.getD t 0 + p.getD (t + 1) 0) / 2 < p.getD t 0) ∧
      (∀ c, (∀ x ∈ p, x = c) → mcut_threshold p = some c) := by
  have hne : difsOf p ≠ [] := by
    intro hcon
    have hlen := length_difsOf p
    rw [hcon] at hlen
    simp only [List.length_nil] at hlen
    omega
  obtain ⟨t, ht⟩ : ∃ t, argmaxIdx (difsOf p) = some t := by
    cases h : argmaxIdx (difsOf p) with
    | none => exact absurd ((argmaxIdx_eq_none_iff _).mp h) hne
    | some t => exact ⟨t, rfl⟩
  obtain ⟨ht1, ht2, ht3⟩ := argmaxIdx_sound _ t ht
  rw [length_difsOf] at ht1
  have htp : t + 1 < p.length := by omega
  have heq : mcut_threshold p = some ((p.getD t 0 + p.getD (t + 1) 0) / 2) := by
    unfold mcut_threshold
    rw [sortDesc_eq_self p hs, ht]
  refine ⟨t, htp, ?_, ?_, heq, ?_, ?_⟩
  · intro i hi
    have hd := ht2 i (by rw [length_difsOf]; omega)
    rwa [difsOf_getD p i hi, difsOf_getD p t htp] at hd
  · intro s hscond
    have hsp : s + 1 < p.length := by omega
    have hd := ht3 s hscond
    rwa [difsOf_getD p s hsp, difsOf_getD p t htp] at hd
  · intro hlt
    constructor <;> linarith
  · intro c hc
    rw [heq, getD_eq_of_all_eq hc (by omega), getD_eq_of_all_eq hc htp]
    congr 1
    ring

/-- Witness for `mcut_threshold_spec` at `p = [9, 5, 1]`. -/
theorem mcut_threshold_spec_witness :
    (2 ≤ ([9, 5, 1] : List ℚ).length) ∧ SortedDesc [9, 5, 1] ∧
      (∃ t, t + 1 < ([9, 5, 1] : List ℚ).length ∧
        (∀ i, i + 1 < ([9, 5, 1] : List ℚ).length →
          ([9, 5, 1] : List ℚ).getD i 0 - ([9, 5, 1] : List ℚ).getD (i + 1) 0 ≤
            ([9, 5, 1] : List ℚ).getD t 0 - ([9, 5, 1] : List ℚ).getD (t + 1) 0) ∧
        (∀ s, s < t →
          ([9, 5, 1] : List ℚ).getD s 0 - ([9, 5, 1] : List ℚ).getD (s + 1) 0 <
            ([9, 5, 1] : List ℚ).getD t 0 - ([9, 5, 1] : List ℚ).getD (t + 1) 0) ∧
        mcut_threshold [9, 5, 1] =
          some ((([9, 5, 1] : List ℚ).getD t 0 + ([9, 5, 1] : List ℚ).getD (t + 1) 0) / 2) ∧
        (([9, 5, 1] : List ℚ).getD (t + 1) 0 < ([9, 5, 1] : List ℚ).getD t 0 →
          ([9, 5, 1] : List ℚ).getD (t + 1) 0 <
              (([9, 5, 1] : List ℚ).getD t 0 + ([9, 5, 1] : List ℚ).getD (t + 1) 0) / 2 ∧
            (([9, 5, 1] : List ℚ).getD t 0 + ([9, 5, 1] : List ℚ).getD (t + 1) 0) / 2 <
              ([9, 5, 1] : List ℚ).getD t 0) ∧
        (∀ c, (∀ x ∈ ([9, 5, 1] : List ℚ), x = c) → mcut_threshold [9, 5, 1] = some c)) :=
  ⟨by decide, by decide, mcut_threshold_spec [9, 5, 1] (by decide) (by decide)⟩

/-- Lexicographic "no better than" order on `(severity rank, score)`. -/
def domLe (sev : List String) (p q : String × ℚ) : Prop :=
  severityRank sev p.1 < severityRank sev q.1 ∨
    (severityRank sev p.1 = severityRank sev q.1 ∧ p.2 ≤ q.2)

lemma domLe_refl (sev : List String) (p : String × ℚ) : domLe sev p p :=
  Or.inr ⟨rfl, le_refl _⟩

lemma domLe_trans {sev : List String} {p q r : String × ℚ}
    (h1 : domLe sev p q) (h2 : domLe sev q r) : domLe sev p r := by
  rcases h1 with h1 | ⟨h1, h1'⟩ <;> rcases h2 with h2 | ⟨h2, h2'⟩
  · exact Or.inl (by omega)
  · exact Or.inl (by omega)
  · exact Or.inl (by omega)
  · exact Or.inr ⟨by omega, le_trans h1' h2'⟩

lemma maxByScore_ne_none (s : List (String × ℚ)) (h : s ≠ []) :
    ∃ q, maxByScore s = some q := by
  cases s with
  | nil => exact absurd rfl h
  | cons p ps =>
    rw [maxByScore]
    cases maxByScore ps with
    | none => exact ⟨p, rfl⟩
    | some q =>
      by_cases hc : p.2 < q.2
      · exact ⟨q, if_pos hc⟩
      · exact ⟨p, if_neg hc⟩

lemma ratingStep_some_of_cond {sev : List String} {fr rs : String × ℚ}
    (hcond : severityRank sev rs.1 > severityRank sev fr.1
      ∨ (severityRank sev rs.1 = severityRank sev fr.1 ∧ rs.2 > fr.2)) :
    ratingStep sev (some fr) rs = some rs := by
  simp only [ratingStep]
  exact if_pos hcond

lemma ratingStep_some_of_not_cond {sev : List String} {fr rs : String × ℚ}
    (hcond : ¬(severityRank sev rs.1 > severityRank sev fr.1
      ∨ (severityRank sev rs.1 = severityRank sev fr.1 ∧ rs.2 > fr.2))) :
    ratingStep sev (some fr) rs = some fr := by
  simp only [ratingStep]
  exact if_neg hcond

lemma foldl_ratingStep_spec (sev : List String) :
    ∀ (cands : List (String × ℚ)) (acc : Option (String × ℚ)) (q : String × ℚ),
      List.foldl (ratingStep sev) acc cands = some q →
      (q ∈ cands ∨ acc = some q) ∧ (∀ p ∈ cands, domLe sev p q) ∧
        (∀ a, acc = some a → domLe sev a q) := by
  intro cands
  induction cands with
  | nil =>
    intro acc q h
    simp only [List.foldl_nil] at h
    refine ⟨Or.inr h, by simp, fun a ha => ?_⟩
    rw [ha] at h
    obtain rfl : a = q := by injection h
    exact domLe_refl sev a
  | cons rs rest ih =>
    intro acc q h
    rw [List.foldl_cons] at h
    obtain ⟨h1, h2, h3⟩ := ih (ratingStep sev acc rs) q h
    cases acc with
    | none =>
      have hstep : ratingStep sev none rs = some rs := rfl
      refine ⟨?_, ?_, fun a ha => Option.noConfusion ha⟩
      · rcases h1 with hq | hq
        · exact Or.inl (List.mem_cons_of_mem _ hq)
        · rw [hstep] at hq
          obtain rfl : rs = q := by injection hq
          exact Or.inl (List.mem_cons_self _ _)
      · intro p hp
        rcases List.mem_cons.mp hp with rfl | hp'
        · exact h3 p hstep
        · exact h2 p hp'
    | some fr =>
      by_cases hcond : severityRank sev rs.1 > severityRank sev fr.1
          ∨ (severityRank sev rs.1 = severityRank sev fr.1 ∧ rs.2 > fr.2)
      · have hstep := @ratingStep_some_of_cond sev fr rs hcond
        have hfr : domLe sev fr q := by
          have hfrrs : domLe sev fr rs := by
            rcases hcond with hlt | ⟨heq, hgt⟩
            · exact Or.inl hlt
            · exact Or.inr ⟨heq.symm, le_of_lt hgt⟩
          exact domLe_trans hfrrs (h3 rs hstep)
        refine ⟨?_, ?_, ?_⟩
        · rcases h1 with hq | hq
          · exact Or.inl (List.mem_cons_of_mem _ hq)
          · rw [hstep] at hq
            obtain rfl : rs = q := by injection hq
            exact Or.inl (List.mem_cons_self _ _)
        · intro p hp
          rcases List.mem_cons.mp hp with rfl | hp'
          · exact h3 p hstep
          · exact h2 p hp'
        · intro a ha
          obtain rfl : fr = a := by injection ha
          exact hfr
      · have hstep := @ratingStep_some_of_not_cond sev fr rs hcond
        have hfr : domLe sev fr q := h3 fr hstep
        have hrs : domLe sev rs q := by
          push_neg at hcond
          obtain ⟨hle, himp⟩ := hcond
          rcases lt_or_eq_of_le hle with hlt | heq
          · exact domLe_trans (Or.inl hlt) hfr
          · exact domLe_trans (Or.inr ⟨heq, himp heq⟩) hfr
        refine ⟨?_, ?_, ?_⟩
        · rcases h1 with hq | hq
          · exact Or.inl (List.mem_cons_of_mem _ hq)
          · rw [hstep] at hq
            exact Or.inr hq
        · intro p hp
          rcases List.mem_cons.mp hp with rfl | hp'
          · exact hrs
          · exact h2 p hp'
        · intro a ha
          obtain rfl : fr = a := by injection ha
          exact hfr

lemma foldl_ratingStep_some (sev : List String) :
    ∀ (cands : List (String × ℚ)) (fr : String × ℚ),
      ∃ q, List.foldl (ratingStep sev) (some fr) cands = some q := by
  intro cands
  induction cands with
  | nil => exact fun fr => ⟨fr, rfl⟩
  | cons rs rest ih =>
    intro fr
    rw [List.foldl_cons]
    by_cases hcond : severityRank sev rs.1 > severityRank sev fr.1
        ∨ (severityRank sev rs.1 = severityRank sev fr.1 ∧ rs.2 > fr.2)
    · rw [ratingStep_some_of_cond hcond]
      exact ih rs
    · rw [ratingStep_some_of_not_cond hcond]
      exact ih fr

lemma get_rating_loop_eq_foldl (sev : List String) :
    ∀ (tags : List (List (String × ℚ))) (acc : Option (String × ℚ)),
      (∀ s ∈ tags, s ≠ []) →
      get_rating_loop sev acc tags =
        some (List.foldl (ratingStep sev) acc (tags.filterMap maxByScore)) := by
  intro tags
  induction tags with
  | nil => intro acc _; rfl
  | cons s rest ih =>
    intro acc hall
    obtain ⟨q, hq⟩ := maxByScore_ne_none s (hall s (List.mem_cons_self _ _))
    rw [get_rating_loop, hq, List.filterMap_cons_some hq, List.foldl_cons]
    exact ih (ratingStep sev acc q) (fun s' hs' => hall s' (List.mem_cons_of_mem _ hs'))

/-- C4 (amended): `get_rating` returns one of the per-sample
highest-score ratings, and among those per-sample maxima it has the
largest severity rank, with ties broken by the larger score. -/
theorem get_rating_spec (tags : List (List (String × ℚ))) (sev : List String)
    (h1 : tags ≠ []) (h2 : ∀ s ∈ tags, s ≠ []) :
    ∃ r : String × ℚ, get_rating tags sev = some r ∧
      some r ∈ tags.map maxByScore ∧
      ∀ p : String × ℚ, some p ∈ tags.map maxByScore →
        severityRank sev p.1 < severityRank sev r.1 ∨
          (severityRank sev p.1 = severityRank sev r.1 ∧ p.2 ≤ r.2) := by
  obtain ⟨s, rest, rfl⟩ : ∃ s rest, tags = s :: rest := by
    cases tags with
    | nil => exact absurd rfl h1
    | cons s rest => exact ⟨s, rest, rfl⟩
  obtain ⟨q0, hq0⟩ := maxByScore_ne_none s (h2 s (List.mem_cons_self _ _))
  have hcands : (s :: rest).filterMap maxByScore =
      q0 :: rest.filterMap maxByScore := List.filterMap_cons_some hq0
  obtain ⟨q, hq⟩ := foldl_ratingStep_some sev (rest.filterMap maxByScore) q0
  have hfold : List.foldl (ratingStep sev) none ((s :: rest).filterMap maxByScore)
      = some q := by
    rw [hcands, List.foldl_cons]
    exact hq
  have hloop := get_rating_loop_eq_foldl sev (s :: rest) none h2
  rw [hfold] at hloop
  obtain ⟨hmem, hdom, -⟩ := foldl_ratingStep_spec sev _ none q hfold
  refine ⟨q, ?_, ?_, ?_⟩
  · rw [get_rating, hloop]
  · rcases hmem with hmem | hmem
    · obtain ⟨a, ha, hfa⟩ := List.mem_filterMap.mp hmem
      exact List.mem_map.mpr ⟨a, ha, hfa⟩
    · exact Option.noConfusion hmem
  · intro p hp
    obtain ⟨a, ha, hfa⟩ := List.mem_map.mp hp
    exact hdom p (List.mem_filterMap.mpr ⟨a, ha, hfa⟩)

/-- Witness for `get_rating_spec` at two one-rating samples. -/
theorem get_rating_spec_witness :
    ([[("safe", (9 : ℚ))], [("explicit", (8 : ℚ))]] ≠
        ([] : List (List (String × ℚ)))) ∧
      (∀ s ∈ [[("safe", (9 : ℚ))], [("explicit", (8 : ℚ))]], s ≠ []) ∧
      (∃ r : String × ℚ,
        get_rating [[("safe", 9)], [("explicit", 8)]] ["safe", "explicit"] = some r ∧
        some r ∈ [[("safe", (9 : ℚ))], [("explicit", (8 : ℚ))]].map maxByScore ∧
        ∀ p : String × ℚ,
          some p ∈ [[("safe", (9 : ℚ))], [("explicit", (8 : ℚ))]].map maxByScore →
          severityRank ["safe", "explicit"] p.1 < severityRank ["safe", "explicit"] r.1 ∨
            (severityRank ["safe", "explicit"] p.1 = severityRank ["safe", "explicit"] r.1 ∧
              p.2 ≤ r.2)) :=
  ⟨by decide, by decide,
    get_rating_spec [[("safe", 9)], [("explicit", 8)]] ["safe", "explicit"]
      (by decide) (by decide)⟩

/-- C4 counterexample: inside a single sample only the highest-score rating
survives, so a lower-score rating of strictly higher severity occurring in
the same sample is ignored, contradicting the claim that the rating of
highest severity among all ratings occurring in any sample is selected. -/
theorem get_rating_severity_counterexample :
    get_rating [[("safe", 9), ("explicit", 8)]] ["safe", "explicit"]
        = some ("safe", 9) ∧
      (∃ s ∈ [[("safe", (9 : ℚ)), ("explicit", (8 : ℚ))]],
        ("explicit", (8 : ℚ)) ∈ s) ∧
      severityRank ["safe", "explicit"] "safe" <
        severityRank ["safe", "explicit"] "explicit" := by
  refine ⟨by decide, ⟨[("safe", 9), ("explicit", 8)], by decide, by decide⟩, by decide⟩

lemma length_insertDesc (x : ℚ) (l : List ℚ) :
    (insertDesc x l).length = l.length + 1 := by
  induction l with
  | nil => rfl
  | cons y ys ih =>
    rw [insertDesc]
    split
    · simp
    · simp [ih]

lemma length_sortDesc (l : List ℚ) : (sortDesc l).length = l.length := by
  induction l with
  | nil => rfl
  | cons x xs ih =>
    show (insertDesc x (sortDesc xs)).length = xs.length + 1
    rw [length_insertDesc, ih]

lemma mcut_threshold_singleton (c : ℚ) : mcut_threshold [c] = none := rfl

lemma mcut_threshold_some_of_two_le (probs : List ℚ) (h : 2 ≤ probs.length) :
    ∃ m, mcut_threshold probs = some m := by
  have hne : difsOf (sortDesc probs) ≠ [] := by
    intro hcon
    have hlen := length_difsOf (sortDesc probs)
    rw [hcon, length_sortDesc] at hlen
    simp only [List.length_nil] at hlen
    omega
  obtain ⟨t, ht⟩ : ∃ t, argmaxIdx (difsOf (sortDesc probs)) = some t := by
    cases harg : argmaxIdx (difsOf (sortDesc probs)) with
    | none => exact absurd ((argmaxIdx_eq_none_iff _).mp harg) hne
    | some t => exact ⟨t, rfl⟩
  exact ⟨_, by rw [mcut_threshold, ht]⟩

/-- C10: the second, MCut-thresholded tag-text row is written exactly when
the general-namespace tag list has at least two entries; with exactly one
entry `handle_tag_result` raises (argmax of an empty difference array);
with no general tags the second row is skipped silently. -/
theorem handle_tag_result_rows_spec (ns : String)
    (tags : List (String × String × ℚ)) (hne : tags ≠ []) :
    ((generalConfs tags).length = 1 → handle_tag_result_rows ns tags = none) ∧
      (2 ≤ (generalConfs tags).length →
        ∃ r0 r1, handle_tag_result_rows ns tags = some [r0, r1] ∧
          r1.data_index = 1 ∧ r1.language = ns ++ "-mcut" ∧
          mcut_threshold (generalConfs tags) = some r1.confidence) ∧
      (generalConfs tags = [] →
        ∃ r0, handle_tag_result_rows ns tags = some [r0] ∧
          r0.data_index = 0 ∧ r0.language = ns) := by
  obtain ⟨t0, ts, rfl⟩ : ∃ t0 ts, tags = t0 :: ts := by
    cases tags with
    | nil => exact absurd rfl hne
    | cons t0 ts => exact ⟨t0, ts, rfl⟩
  refine ⟨?_, ?_, ?_⟩
  · intro hlen
    obtain ⟨c, hc⟩ := List.length_eq_one.mp hlen
    simp [handle_tag_result_rows, List.map_cons, hc, mcut_threshold_singleton]
  · intro hlen
    obtain ⟨m, hm⟩ := mcut_threshold_some_of_two_le _ hlen
    have hempty : (generalConfs (t0 :: ts)).isEmpty = false := by
      cases hg : generalConfs (t0 :: ts) with
      | nil => rw [hg] at hlen; simp at hlen
      | cons a as => simp
    refine ⟨⟨0, String.intercalate ", " (List.map (fun t => t.2.1) (t0 :: ts)), ns, 1,
        List.foldl min t0.2.2 (List.map (fun t => t.2.2) ts)⟩,
      ⟨1, String.intercalate ", " (((t0 :: ts).filter
          (fun t => m ≤ t.2.2 ∨ t.1 ≠ "general")).map (fun t => t.2.1)),
        ns ++ "-mcut", 1, m⟩, ?_, rfl, rfl, by rw [hm]⟩
    simp only [handle_tag_result_rows, List.map_cons, hempty, Bool.false_eq_true,
      if_false, hm]
  · intro hg
    refine ⟨⟨0, String.intercalate ", " (List.map (fun t => t.2.1) (t0 :: ts)), ns, 1,
        List.foldl min t0.2.2 (List.map (fun t => t.2.2) ts)⟩, ?_, rfl, rfl⟩
    simp only [handle_tag_result_rows, List.map_cons, hg, List.isEmpty_nil,
      if_true]

/-- Witness for `handle_tag_result_rows_spec` on a three-tag result with two
general-namespace tags. -/
theorem handle_tag_result_rows_spec_witness :
    ([(("general" : String), ("cat" : String), (9 : ℚ)),
        ("general", "dog", 5), ("rating", "rating:safe", 8)] ≠
      ([] : List (String × String × ℚ))) ∧
      (((generalConfs [("general", "cat", 9), ("general", "dog", 5),
            ("rating", "rating:safe", 8)]).length = 1 →
          handle_tag_result_rows "danbooru"
            [("general", "cat", 9), ("general", "dog", 5),
              ("rating", "rating:safe", 8)] = none) ∧
        (2 ≤ (generalConfs [("general", "cat", 9), ("general", "dog", 5),
            ("rating", "rating:safe", 8)]).length →
          ∃ r0 r1, handle_tag_result_rows "danbooru"
              [("general", "cat", 9), ("general", "dog", 5),
                ("rating", "rating:safe", 8)] = some [r0, r1] ∧
            r1.data_index = 1 ∧ r1.language = "danbooru" ++ "-mcut" ∧
            mcut_threshold (generalConfs [("general", "cat", 9),
              ("general", "dog", 5), ("rating", "rating:safe", 8)]) =
              some r1.confidence) ∧
        (generalConfs [("general", "cat", 9), ("general", "dog", 5),
            ("rating", "rating:safe", 8)] = [] →
          ∃ r0, handle_tag_result_rows "danbooru"
              [("general", "cat", 9), ("general", "dog", 5),
                ("rating", "rating:safe", 8)] = some [r0] ∧
            r0.data_index = 0 ∧ r0.language = "danbooru")) :=
  ⟨by decide,
    handle_tag_result_rows_spec "danbooru"
      [("general", "cat", 9), ("general", "dog", 5),
        ("rating", "rating:safe", 8)] (by decide)⟩

end Tags

namespace OrderBy

/-! ## `src/panoptikon/db/pql/order_by.py` -/

/-- A compiled ordering direction (`sqlalchemy.asc` / `sqlalchemy.desc`). -/
inductive Direction
  | ascD
  | descD
deriving DecidableEq, Repr

/-- An `OrderByFilter` from `panoptikon.db.pql.types`: a sortable filter's
contribution to the ordering (its CTE's `order_rank` column), with a
direction string and an integer priority. -/
structure OrderByFilter where
  priority : Int
  cteName : String
  direction : String
deriving DecidableEq, Repr

/-- An explicit `OrderArgs` entry from the query. -/
structure OrderArgs where
  order_by : Option String
  order : Option String
  priority : Int
deriving DecidableEq, Repr

/-- `get_order_by_and_direction`: default the column to `last_modified`, and
default the direction by inspecting `order_args.order_by` (note: the
original field, not the defaulted local). -/
def get_order_by_and_direction (args : OrderArgs) : String × Direction :=
  let order_by := match args.order_by with
    | none => "last_modified"
    | some ob => ob
  let direction := match args.order with
    | none =>
      if args.order_by = some "last_modified" then Direction.descD
      else Direction.ascD
    | some d => if d = "asc" then Direction.ascD else Direction.descD
  (order_by, direction)

/-- An element of the combined ordering list: either a sortable filter's
`OrderByFilter` or an explicit `OrderArgs`. -/
inductive OrderSpec
  | filt (f : OrderByFilter)
  | args (a : OrderArgs)
deriving DecidableEq, Repr

def OrderSpec.priority : OrderSpec → Int
  | filt f => f.priority
  | args a => a.priority

def OrderSpec.isFilt : OrderSpec → Bool
  | filt _ => true
  | args _ => false

/-- `[(obj, idx, 0) for idx, obj in enumerate(order_list)] +
[(obj, idx, 1) for idx, obj in enumerate(order_args)]`. -/
def combined (order_list : List OrderByFilter) (order_args : List OrderArgs) :
    List (OrderSpec × Nat × Nat) :=
  (order_list.enum.map (fun p => (OrderSpec.filt p.2, p.1, 0))) ++
    (order_args.enum.map (fun p => (OrderSpec.args p.2, p.1, 1)))

/-- The Python sort key `(-x[0].priority, x[2], x[1])` compared
lexicographically. -/
def keyLe (a b : OrderSpec × Nat × Nat) : Prop :=
  -a.1.priority < -b.1.priority ∨
    (-a.1.priority = -b.1.priority ∧
      (a.2.2 < b.2.2 ∨ (a.2.2 = b.2.2 ∧ a.2.1 ≤ b.2.1)))

instance : DecidableRel keyLe := fun a b => by
  unfold keyLe
  infer_instance

instance : IsTotal (OrderSpec × Nat × Nat) keyLe :=
  ⟨by intro a b; unfold keyLe; omega⟩

instance : IsTrans (OrderSpec × Nat × Nat) keyLe :=
  ⟨by intro a b c hab hbc; unfold keyLe at *; omega⟩

/-- `sorted(combined, key=lambda x: (-x[0].priority, x[2], x[1]))`. -/
def sortedCombined (ol : List OrderByFilter) (oa : List OrderArgs) :
    List (OrderSpec × Nat × Nat) :=
  List.insertionSort keyLe (combined ol oa)

/-- `final_order = [item[0] for item in sorted_combined]`. -/
def finalOrder (ol : List OrderByFilter) (oa : List OrderArgs) :
    List OrderSpec :=
  (sortedCombined ol oa).map (fun x => x.1)

/-- The `itertools.groupby` key `(obj.priority, isinstance(obj, OrderByFilter))`. -/
def groupKey (s : OrderSpec) : Int × Bool := (s.priority, s.isFilt)

/-- Split a list into the maximal runs of consecutive elements sharing the
same `groupKey` (the semantics of `itertools.groupby`). -/
def groupRuns : List OrderSpec → List (List OrderSpec)
  | [] => []
  | x :: xs =>
    match groupRuns xs with
    | [] => [[x]]
    | [] :: rs => [x] :: rs
    | (y :: r) :: rs =>
      if groupKey x = groupKey y then (x :: y :: r) :: rs
      else [x] :: (y :: r) :: rs

def OrderSpec.getFilt : OrderSpec → Option OrderByFilter
  | filt f => some f
  | args _ => none

/-- The default used only to give `headD` a value on (impossible) empty runs. -/
def dfltSpec : OrderSpec := OrderSpec.args ⟨none, none, 0⟩

/-- An element of the grouped ordering list: single entries and coalesced
groups of `OrderByFilter`s. -/
inductive Grouped
  | single (s : OrderSpec)
  | group (fs : List OrderByFilter)
deriving DecidableEq, Repr

/-- One `groupby` group, emitted either as a coalesced filter group (when
the key says `OrderByFilter`, the run has more than one element and all its
elements are `OrderByFilter`s) or as its individual elements. -/
def emitRun (r : List OrderSpec) : List Grouped :=
  if (r.headD dfltSpec).isFilt ∧ 1 < r.length ∧ r.all OrderSpec.isFilt then
    [Grouped.group (r.filterMap OrderSpec.getFilt)]
  else r.map Grouped.single

/-- `group_order_list`. -/
def group_order_list (l : List OrderSpec) : List Grouped :=
  (groupRuns l).flatMap emitRun

/-- `combine_order_lists`. -/
def combine_order_lists (ol : List OrderByFilter) (oa : List OrderArgs) :
    List Grouped :=
  group_order_list (finalOrder ol oa)

/-- Modelled from the spec: `VERY_LARGE_NUMBER` from
`panoptikon.db.pql.types` (module not under `src/`), the sentinel standing
for `+inf` in `COALESCE(col, +inf)`. -/
def VERY_LARGE_NUMBER : Int := 9999999999

/-- Modelled from the spec: `VERY_SMALL_NUMBER` from
`panoptikon.db.pql.types` (module not under `src/`), the sentinel standing
for `-inf` in `COALESCE(col, -inf)`. -/
def VERY_SMALL_NUMBER : Int := -9999999999

/-- A SQL scalar expression, as far as the ordering compiler builds them. -/
inductive SqlExpr
  | col (cte : String)
  | num (n : Int)
  | coalesce (e d : SqlExpr)
  | minOf (es : List SqlExpr)
  | maxOf (es : List SqlExpr)

/-- An ordering term: a SQL expression with a direction. -/
inductive OrderTerm
  | ascT (e : SqlExpr)
  | descT (e : SqlExpr)

/-- `coalesce_order_filters` (the emitted `order_by_condition`): take the
direction from the first filter of the group; for ascending emit
`MIN(COALESCE(col, VERY_LARGE_NUMBER))`, for descending emit
`MAX(COALESCE(col, VERY_SMALL_NUMBER))` over the member rank columns. -/
def coalesce_order_filters (args : List OrderByFilter) : OrderTerm :=
  let direction := (args.headD ⟨0, "", "asc"⟩).direction
  let columns := args.map (fun f => SqlExpr.col f.cteName)
  if direction = "asc" then
    OrderTerm.ascT (SqlExpr.minOf
      (columns.map (fun c => SqlExpr.coalesce c (SqlExpr.num VERY_LARGE_NUMBER))))
  else
    OrderTerm.descT (SqlExpr.maxOf
      (columns.map (fun c => SqlExpr.coalesce c (SqlExpr.num VERY_SMALL_NUMBER))))

def Grouped.toSpecs : Grouped → List OrderSpec
  | single s => [s]
  | group fs => fs.map OrderSpec.filt

def Grouped.priority : Grouped → Int
  | single s => s.priority
  | group fs => (fs.headD ⟨0, "", "asc"⟩).priority

def Grouped.isFiltKind : Grouped → Bool
  | single s => s.isFilt
  | group _ => true

/-- C3 counterexample: with `order_by` unspecified the effective column is
`last_modified`, yet the compiled direction is ascending, because the
direction default inspects the original (un-defaulted) `order_by` field. -/
theorem default_order_direction_counterexample :
    (get_order_by_and_direction ⟨none, none, 0⟩).1 = "last_modified" ∧
      (get_order_by_and_direction ⟨none, none, 0⟩).2 = Direction.ascD ∧
      Direction.ascD ≠ Direction.descD := by
  exact ⟨rfl, rfl, by decide⟩

/-- C3 (amended): when the direction is unspecified, it is descending iff
`order_by` is explicitly `last_modified`; with `order_by` unspecified the
effective column still defaults to `last_modified` (but the direction is
then ascending). -/
theorem get_order_by_and_direction_spec (args : OrderArgs)
    (h : args.order = none) :
    ((get_order_by_and_direction args).2 = Direction.descD ↔
        args.order_by = some "last_modified") ∧
      (args.order_by = none →
        (get_order_by_and_direction args).1 = "last_modified") := by
  constructor
  · by_cases hob : args.order_by = some "last_modified" <;>
      simp [get_order_by_and_direction, h, hob]
  · intro hob
    simp [get_order_by_and_direction, hob]

/-- Witness for `get_order_by_and_direction_spec` at
`OrderArgs(order_by="path", order=None)`. -/
theorem get_order_by_and_direction_spec_witness :
    ((⟨some "path", none, 0⟩ : OrderArgs).order = none) ∧
      (((get_order_by_and_direction ⟨some "path", none, 0⟩).2 = Direction.descD ↔
          (⟨some "path", none, 0⟩ : OrderArgs).order_by = some "last_modified") ∧
        ((⟨some "path", none, 0⟩ : OrderArgs).order_by = none →
          (get_order_by_and_direction ⟨some "path", none, 0⟩).1 = "last_modified")) :=
  ⟨rfl, get_order_by_and_direction_spec ⟨some "path", none, 0⟩ rfl⟩

lemma groupRuns_flatMap_id (l : List OrderSpec) :
    (groupRuns l).flatMap (fun r => r) = l := by
  induction l with
  | nil => rfl
  | cons x xs ih =>
    cases h : groupRuns xs with
    | nil =>
      rw [h] at ih
      simp only [List.flatMap_nil] at ih
      simp only [groupRuns, h]
      simp [← ih]
    | cons r0 rs =>
      rw [h] at ih
      cases r0 with
      | nil =>
        simp only [groupRuns, h]
        simp only [List.flatMap_cons, List.nil_append] at ih
        simp [ih]
      | cons y r' =>
        simp only [groupRuns, h]
        split <;> simp_all

lemma groupRuns_ne_nil (l : List OrderSpec) :
    ∀ r ∈ groupRuns l, r ≠ [] := by
  induction l with
  | nil => simp [groupRuns]
  | cons x xs ih =>
    cases h : groupRuns xs with
    | nil =>
      simp only [groupRuns, h]
      simp
    | cons r0 rs =>
      have ih' := fun r hr => ih r (h ▸ hr)
      cases r0 with
      | nil =>
        simp only [groupRuns, h]
        intro r hr
        rcases List.mem_cons.mp hr with rfl | hr'
        · simp
        · exact ih' r (List.mem_cons_of_mem _ hr')
      | cons y r' =>
        simp only [groupRuns, h]
        split
        · intro r hr
          rcases List.mem_cons.mp hr with rfl | hr'
          · simp
          · exact ih' r (List.mem_cons_of_mem _ hr')
        · intro r hr
          rcases List.mem_cons.mp hr with rfl | hr'
          · simp
          · exact ih' r hr'

lemma groupRuns_const_key (l : List OrderSpec) :
    ∀ r ∈ groupRuns l, ∀ s ∈ r, groupKey s = groupKey (r.headD dfltSpec) := by
  induction l with
  | nil => simp [groupRuns]
  | cons x xs ih =>
    cases h : groupRuns xs with
    | nil =>
      simp only [groupRuns, h]
      intro r hr s hs
      rcases List.mem_cons.mp hr with rfl | hr'
      · rcases List.mem_cons.mp hs with rfl | hs'
        · rfl
        · cases hs'
      · cases hr'
    | cons r0 rs =>
      have ih' := fun r hr => ih r (h ▸ hr)
      cases r0 with
      | nil =>
        simp only [groupRuns, h]
        intro r hr s hs
        rcases List.mem_cons.mp hr with rfl | hr'
        · rcases List.mem_cons.mp hs with rfl | hs'
          · rfl
          · cases hs'
        · exact ih' r (List.mem_cons_of_mem _ hr') s hs
      | cons y r' =>
        simp only [groupRuns, h]
        split
        next heq =>
          intro r hr s hs
          rcases List.mem_cons.mp hr with rfl | hr'
          · rcases List.mem_cons.mp hs with rfl | hs'
            · rfl
            · have hks := ih' (y :: r') (List.mem_cons_self _ _) s hs'
              simp only [List.headD_cons] at hks ⊢
              rw [hks, ← heq]
          · exact ih' r (List.mem_cons_of_mem _ hr') s hs
        next =>
          intro r hr s hs
          rcases List.mem_cons.mp hr with rfl | hr'
          · rcases List.mem_cons.mp hs with rfl | hs'
            · rfl
            · cases hs'
          · exact ih' r hr' s hs

lemma combined_tag (ol : List OrderByFilter) (oa : List OrderArgs) :
    ∀ x ∈ combined ol oa, x.2.2 = (if x.1.isFilt then 0 else 1) := by
  intro x hx
  rcases List.mem_append.mp hx with hx | hx
  · obtain ⟨p, hp, rfl⟩ := List.mem_map.mp hx
    simp [OrderSpec.isFilt]
  · obtain ⟨p, hp, rfl⟩ := List.mem_map.mp hx
    simp [OrderSpec.isFilt]

lemma sortedCombined_tag (ol : List OrderByFilter) (oa : List OrderArgs) :
    ∀ x ∈ sortedCombined ol oa, x.2.2 = (if x.1.isFilt then 0 else 1) :=
  fun x hx =>
    combined_tag ol oa x ((List.perm_insertionSort keyLe _).mem_iff.mp hx)

lemma pairwise_finalOrder (ol : List OrderByFilter) (oa : List OrderArgs) :
    (finalOrder ol oa).Pairwise
      (fun s1 s2 => s2.priority ≤ s1.priority ∧
        (s1.priority = s2.priority → s1.isFilt = false → s2.isFilt = false)) := by
  have hs : (sortedCombined ol oa).Pairwise keyLe :=
    List.sorted_insertionSort keyLe (combined ol oa)
  have htag := sortedCombined_tag ol oa
  unfold finalOrder
  rw [List.pairwise_map]
  refine hs.imp_of_mem ?_
  intro a b ha hb hR
  have hta := htag a ha
  have htb := htag b hb
  constructor
  · unfold keyLe at hR
    omega
  · intro hpeq hafalse
    rw [hafalse] at hta
    simp only [if_false, Bool.false_eq_true] at hta
    cases hbf : b.1.isFilt with
    | false => rfl
    | true =>
      exfalso
      rw [hbf] at htb
      simp only [if_true] at htb
      unfold keyLe at hR
      omega

lemma filterMap_getFilt_map_filt (r : List OrderSpec)
    (h : r.all OrderSpec.isFilt = true) :
    (r.filterMap OrderSpec.getFilt).map OrderSpec.filt = r := by
  induction r with
  | nil => rfl
  | cons s r' ih =>
    rw [List.all_cons, Bool.and_eq_true] at h
    cases s with
    | filt f =>
      simp only [List.filterMap_cons, OrderSpec.getFilt, List.map_cons]
      rw [ih h.2]
    | args a => exact absurd h.1 (by simp [OrderSpec.isFilt])

lemma flatMap_toSpecs_map_single (r : List OrderSpec) :
    (r.map Grouped.single).flatMap Grouped.toSpecs = r := by
  induction r with
  | nil => rfl
  | cons s r' ih => simp [Grouped.toSpecs, ih]

lemma emitRun_flatMap_toSpecs (r : List OrderSpec) :
    (emitRun r).flatMap Grouped.toSpecs = r := by
  unfold emitRun
  split
  next hcond =>
    simp only [List.flatMap_cons, List.flatMap_nil, List.append_nil,
      Grouped.toSpecs]
    exact filterMap_getFilt_map_filt r hcond.2.2
  next => exact flatMap_toSpecs_map_single r

lemma flat_flatMap_emitRun (runs : List (List OrderSpec)) :
    (runs.flatMap emitRun).flatMap Grouped.toSpecs =
      runs.flatMap (fun r => r) := by
  induction runs with
  | nil => rfl
  | cons r rest ih =>
    rw [List.flatMap_cons, List.flatMap_append, ih, emitRun_flatMap_toSpecs,
      List.flatMap_cons]

lemma flat_group_order_list (l : List OrderSpec) :
    (group_order_list l).flatMap Grouped.toSpecs = l := by
  unfold group_order_list
  rw [flat_flatMap_emitRun, groupRuns_flatMap_id]

lemma groupRuns_chain_heads (l : List OrderSpec) :
    (groupRuns l).Chain'
      (fun r1 r2 => groupKey (r1.headD dfltSpec) ≠ groupKey (r2.headD dfltSpec)) := by
  induction l with
  | nil => simp [groupRuns]
  | cons x xs ih =>
    cases h : groupRuns xs with
    | nil =>
      simp only [groupRuns, h]
      exact List.chain'_singleton _
    | cons r0 rs =>
      rw [h] at ih
      cases r0 with
      | nil => exact absurd rfl (groupRuns_ne_nil xs [] (h ▸ List.mem_cons_self _ _))
      | cons y r' =>
        simp only [groupRuns, h]
        split
        next heq =>
          cases rs with
          | nil => exact List.chain'_singleton _
          | cons r2 rs' =>
            rw [List.chain'_cons] at ih ⊢
            refine ⟨?_, ih.2⟩
            simp only [List.headD_cons] at ih ⊢
            rw [heq]
            exact ih.1
        next hne =>
          rw [List.chain'_cons]
          refine ⟨?_, ih⟩
          simp only [List.headD_cons]
          exact hne

lemma emitRun_ne_nil {r : List OrderSpec} (h : r ≠ []) : emitRun r ≠ [] := by
  cases r with
  | nil => exact absurd rfl h
  | cons s r' =>
    unfold emitRun
    split
    · simp
    · simp

lemma emitRun_key {r : List OrderSpec} (hne : r ≠ [])
    (hconst : ∀ s ∈ r, groupKey s = groupKey (r.headD dfltSpec)) :
    ∀ g ∈ emitRun r, (g.priority, g.isFiltKind) = groupKey (r.headD dfltSpec) := by
  intro g hg
  unfold emitRun at hg
  split at hg
  next hcond =>
    rw [List.mem_singleton] at hg
    subst hg
    obtain ⟨s0, r', rfl⟩ : ∃ s0 r', r = s0 :: r' := by
      cases r with
      | nil => exact absurd rfl hne
      | cons s0 r' => exact ⟨s0, r', rfl⟩
    obtain ⟨hhead, hlen, hall⟩ := hcond
    cases s0 with
    | args a =>
      rw [List.headD_cons] at hhead
      exact absurd hhead (by simp [OrderSpec.isFilt])
    | filt f0 =>
      simp only [List.filterMap_cons, OrderSpec.getFilt, List.headD_cons,
        Grouped.priority, Grouped.isFiltKind, groupKey, OrderSpec.priority,
        OrderSpec.isFilt]
  next =>
    obtain ⟨s, hs, rfl⟩ := List.mem_map.mp hg
    simp only [Grouped.priority, Grouped.isFiltKind]
    exact hconst s hs

lemma emitRun_internal_chain {r : List OrderSpec}
    (hconst : ∀ s ∈ r, groupKey s = groupKey (r.headD dfltSpec)) :
    (emitRun r).Chain'
      (fun g1 g2 => ¬(g1.isFiltKind = true ∧ g2.isFiltKind = true ∧
        g1.priority = g2.priority)) := by
  unfold emitRun
  split
  next => exact List.chain'_singleton _
  next hncond =>
    by_cases hhead : (r.headD dfltSpec).isFilt = true
    · have hall : r.all OrderSpec.isFilt = true := by
        rw [List.all_eq_true]
        intro s hs
        have hk := congrArg Prod.snd (hconst s hs)
        simp only [groupKey] at hk
        rw [hk]
        exact hhead
      have hlen : ¬ 1 < r.length := by
        intro hl
        exact hncond ⟨hhead, hl, hall⟩
      cases r with
      | nil => simp
      | cons s r' =>
        cases r' with
        | nil =>
          simp only [List.map_cons, List.map_nil]
          exact List.chain'_singleton _
        | cons s2 r'' =>
          exfalso
          apply hlen
          simp only [List.length_cons]
          omega
    · have hallf : ∀ s ∈ r, s.isFilt = false := by
        intro s hs
        have hk := congrArg Prod.snd (hconst s hs)
        simp only [groupKey] at hk
        rw [hk]
        exact Bool.eq_false_iff.mpr hhead
      refine List.Pairwise.chain' (List.pairwise_of_forall_mem_list ?_)
      intro g1 h1 g2 h2
      obtain ⟨s1, hs1, rfl⟩ := List.mem_map.mp h1
      intro hcon
      obtain ⟨hf1, -, -⟩ := hcon
      simp only [Grouped.isFiltKind] at hf1
      rw [hallf s1 hs1] at hf1
      exact Bool.noConfusion hf1

lemma chain'_flatMap_emitRun (runs : List (List OrderSpec))
    (hne : ∀ r ∈ runs, r ≠ [])
    (hconst : ∀ r ∈ runs, ∀ s ∈ r, groupKey s = groupKey (r.headD dfltSpec))
    (hadj : runs.Chain'
      (fun r1 r2 => groupKey (r1.headD dfltSpec) ≠ groupKey (r2.headD dfltSpec))) :
    (runs.flatMap emitRun).Chain'
      (fun g1 g2 => ¬(g1.isFiltKind = true ∧ g2.isFiltKind = true ∧
        g1.priority = g2.priority)) := by
  induction runs with
  | nil => simp
  | cons r rest ih =>
    rw [List.flatMap_cons, List.chain'_append]
    have hner := hne r (List.mem_cons_self _ _)
    refine ⟨emitRun_internal_chain (hconst r (List.mem_cons_self _ _)), ?_, ?_⟩
    · exact ih (fun r' hr' => hne r' (List.mem_cons_of_mem _ hr'))
        (fun r' hr' => hconst r' (List.mem_cons_of_mem _ hr'))
        hadj.tail
    · intro x hx y hy
      cases rest with
      | nil => simp at hy
      | cons r2 rest' =>
        have hner2 := hne r2 (List.mem_cons_of_mem _ (List.mem_cons_self _ _))
        rw [List.flatMap_cons,
          List.head?_append_of_ne_nil _ (emitRun_ne_nil hner2)] at hy
        have hxmem : x ∈ emitRun r := List.mem_of_mem_getLast? hx
        have hymem : y ∈ emitRun r2 := List.mem_of_mem_head? hy
        have hkx := emitRun_key hner (hconst r (List.mem_cons_self _ _)) x hxmem
        have hky := emitRun_key hner2
          (hconst r2 (List.mem_cons_of_mem _ (List.mem_cons_self _ _))) y hymem
        have hneq := (List.chain'_cons.mp hadj).1
        intro hcon
        obtain ⟨hf1, hf2, hp⟩ := hcon
        apply hneq
        rw [← hkx, ← hky, hf1, hf2, hp]

lemma group_mem_emitRun {r : List OrderSpec} {fs : List OrderByFilter}
    (h : Grouped.group fs ∈ emitRun r) :
    ((r.headD dfltSpec).isFilt = true ∧ 1 < r.length ∧
        r.all OrderSpec.isFilt = true) ∧
      fs = r.filterMap OrderSpec.getFilt := by
  unfold emitRun at h
  split at h
  next hcond =>
    rw [List.mem_singleton] at h
    refine ⟨hcond, ?_⟩
    injection h
  next =>
    exfalso
    obtain ⟨s, -, hs⟩ := List.mem_map.mp h
    exact Grouped.noConfusion hs

lemma coalesce_order_filters_eq (fs : List OrderByFilter) :
    coalesce_order_filters fs =
      (if (fs.headD ⟨0, "", "asc"⟩).direction = "asc" then
        OrderTerm.ascT (SqlExpr.minOf (fs.map (fun f =>
          SqlExpr.coalesce (SqlExpr.col f.cteName)
            (SqlExpr.num VERY_LARGE_NUMBER))))
      else
        OrderTerm.descT (SqlExpr.maxOf (fs.map (fun f =>
          SqlExpr.coalesce (SqlExpr.col f.cteName)
            (SqlExpr.num VERY_SMALL_NUMBER))))) := by
  unfold coalesce_order_filters
  simp only [List.map_map]
  rfl

/-- C8: the combined ordering list is sorted by non-increasing priority;
within equal priority no filter entry follows an explicit-args entry; every
coalesced group has at least two members, all filters of the group's
priority, and compiles to `MIN(COALESCE(col, VERY_LARGE_NUMBER))` ascending
or `MAX(COALESCE(col, VERY_SMALL_NUMBER))` descending over the member rank
columns; and no two adjacent output entries are both filter-kind with equal
priority (runs are maximal). -/
theorem combine_order_lists_spec (ol : List OrderByFilter) (oa : List OrderArgs) :
    ((combine_order_lists ol oa).flatMap Grouped.toSpecs).Pairwise
        (fun s1 s2 => s2.priority ≤ s1.priority ∧
          (s1.priority = s2.priority → s1.isFilt = false → s2.isFilt = false)) ∧
      (∀ fs, Grouped.group fs ∈ combine_order_lists ol oa →
        2 ≤ fs.length ∧
          (∀ f ∈ fs, f.priority = (fs.headD ⟨0, "", "asc"⟩).priority) ∧
          coalesce_order_filters fs =
            (if (fs.headD ⟨0, "", "asc"⟩).direction = "asc" then
              OrderTerm.ascT (SqlExpr.minOf (fs.map (fun f =>
                SqlExpr.coalesce (SqlExpr.col f.cteName)
                  (SqlExpr.num VERY_LARGE_NUMBER))))
            else
              OrderTerm.descT (SqlExpr.maxOf (fs.map (fun f =>
                SqlExpr.coalesce (SqlExpr.col f.cteName)
                  (SqlExpr.num VERY_SMALL_NUMBER)))))) ∧
      (combine_order_lists ol oa).Chain'
        (fun g1 g2 => ¬(g1.isFiltKind = true ∧ g2.isFiltKind = true ∧
          g1.priority = g2.priority)) := by
  refine ⟨?_, ?_, ?_⟩
  · rw [combine_order_lists, flat_group_order_list]
    exact pairwise_finalOrder ol oa
  · intro fs hmem
    rw [combine_order_lists, group_order_list] at hmem
    obtain ⟨r, hr, hg⟩ := List.mem_flatMap.mp hmem
    obtain ⟨⟨hhead, hlen, hall⟩, rfl⟩ := group_mem_emitRun hg
    have hmap := filterMap_getFilt_map_filt r hall
    have hlenfs : (r.filterMap OrderSpec.getFilt).length = r.length := by
      have hcl := congrArg List.length hmap
      rwa [List.length_map] at hcl
    refine ⟨by omega, ?_, coalesce_order_filters_eq _⟩
    intro f hf
    have hfin : OrderSpec.filt f ∈ r := by
      rw [← hmap]
      exact List.mem_map_of_mem _ hf
    have hk := groupRuns_const_key _ r hr (OrderSpec.filt f) hfin
    obtain ⟨f0, fs', hfs⟩ : ∃ f0 fs', r.filterMap OrderSpec.getFilt = f0 :: fs' := by
      cases hfm : r.filterMap OrderSpec.getFilt with
      | nil =>
        rw [hfm] at hlenfs
        simp only [List.length_nil] at hlenfs
        omega
      | cons f0 fs' => exact ⟨f0, fs', rfl⟩
    have hr_eq : r = OrderSpec.filt f0 :: fs'.map OrderSpec.filt := by
      rw [← hmap, hfs, List.map_cons]
    rw [hr_eq, List.headD_cons] at hk
    rw [hfs, List.headD_cons]
    exact congrArg Prod.fst hk
  · rw [combine_order_lists, group_order_list]
    exact chain'_flatMap_emitRun _ (groupRuns_ne_nil _) (groupRuns_const_key _)
      (groupRuns_chain_heads _)

/-- Witness for `combine_order_lists_spec` at two same-priority filters and
one explicit args entry. -/
theorem combine_order_lists_spec_witness :
    (((combine_order_lists [⟨1, "f0", "asc"⟩, ⟨1, "f1", "asc"⟩]
          [⟨some "path", none, 1⟩]).flatMap Grouped.toSpecs).Pairwise
        (fun s1 s2 => s2.priority ≤ s1.priority ∧
          (s1.priority = s2.priority → s1.isFilt = false → s2.isFilt = false)) ∧
      (∀ fs, Grouped.group fs ∈ combine_order_lists
          [⟨1, "f0", "asc"⟩, ⟨1, "f1", "asc"⟩] [⟨some "path", none, 1⟩] →
        2 ≤ fs.length ∧
          (∀ f ∈ fs, f.priority = (fs.headD ⟨0, "", "asc"⟩).priority) ∧
          coalesce_order_filters fs =
            (if (fs.headD ⟨0, "", "asc"⟩).direction = "asc" then
              OrderTerm.ascT (SqlExpr.minOf (fs.map (fun f =>
                SqlExpr.coalesce (SqlExpr.col f.cteName)
                  (SqlExpr.num VERY_LARGE_NUMBER))))
            else
              OrderTerm.descT (SqlExpr.maxOf (fs.map (fun f =>
                SqlExpr.coalesce (SqlExpr.col f.cteName)
                  (SqlExpr.num VERY_SMALL_NUMBER)))))) ∧
      (combine_order_lists [⟨1, "f0", "asc"⟩, ⟨1, "f1", "asc"⟩]
          [⟨some "path", none, 1⟩]).Chain'
        (fun g1 g2 => ¬(g1.isFiltKind = true ∧ g2.isFiltKind = true ∧
          g1.priority = g2.priority))) :=
  combine_order_lists_spec [⟨1, "f0", "asc"⟩, ⟨1, "f1", "asc"⟩]
    [⟨some "path", none, 1⟩]

end OrderBy

namespace Similarity

/-! ## `src/panoptikon/db/pql/filters/sortable/item_similarity.py` -/

/-- `SourceArgs` (source-text filters and weighting exponents). -/
structure SourceArgs where
  setter_names : Option (List String)
  languages : Option (List String)
  min_confidence : ℝ
  min_language_confidence : ℝ
  min_length : Nat
  confidence_weight : ℝ
  language_confidence_weight : ℝ

/-- `SimilarityArgs` for a `SimilarTo` filter. -/
structure SimilarityArgs where
  target : String
  setter_name : String
  distance_function : String
  distance_aggregation : String
  src_text : Option SourceArgs
  clip_xmodal : Bool
  xmodal_t2t : Bool
  xmodal_i2i : Bool

/-- A row of the `setters` table. -/
structure SetterRow where
  id : Nat
  name : String

/-- A row of the `item_data` table (the fields the similarity planner reads). -/
structure ItemDataRow where
  id : Nat
  item_id : Nat
  setter_id : Nat
  data_type : String
  source_id : Option Nat

/-- A row of the `embeddings` table. -/
structure EmbeddingRow where
  id : Nat
  embedding : List ℝ

/-- A row of the `items` table (the fields the similarity planner reads). -/
structure ItemRow where
  id : Nat
  sha256 : String

/-- A row of the `extracted_text` table (the fields the similarity planner
reads). -/
structure ExtractedTextRow where
  id : Nat
  language : String
  language_confidence : ℝ
  confidence : ℝ
  text_length : Nat

/-- A row of the context CTE handed to the filter (standard columns). -/
structure CtxRow where
  file_id : Nat
  item_id : Nat

/-- The attached databases, as far as `SimilarTo.build_query` reads them. -/
structure Database where
  items : List ItemRow
  item_data : List ItemDataRow
  setters : List SetterRow
  embeddings : List EmbeddingRow
  extracted_text : List ExtractedTextRow

/-- The joins of the embeddings query: context → `item_data` on `item_id`,
→ `setters` on `setter_id` with `setters.name == model_name`,
→ `embeddings` on `embeddings.id == item_data.id`. -/
def embJoinRows (db : Database) (ctx : List CtxRow) (model_name : String) :
    List (CtxRow × ItemDataRow × SetterRow × EmbeddingRow) :=
  ctx.flatMap (fun c =>
    (db.item_data.filter (fun d => d.item_id == c.item_id)).flatMap (fun d =>
      (db.setters.filter (fun s =>
          s.id == d.setter_id && s.name == model_name)).flatMap (fun s =>
        (db.embeddings.filter (fun e => e.id == d.id)).map (fun e =>
          (c, d, s, e)))))

/-- The source-text joins and `WHERE` clauses applied when `src_text` is
present: join `extracted_text` through `item_data.source_id`, require the
derived `src_item_data` row to exist, and apply the language / confidence /
length filters (the `src_setters` join condition in the source constrains
the main `setters` alias's name, which is modelled by the condition on
`s.name`). -/
noncomputable def srcTextKeep (db : Database) (src : SourceArgs)
    (row : CtxRow × ItemDataRow × SetterRow × EmbeddingRow) : Bool :=
  let d := row.2.1
  let s := row.2.2.1
  db.extracted_text.any (fun t =>
    (some t.id == d.source_id) &&
    db.item_data.any (fun sd => sd.id == t.id) &&
    (match src.setter_names with
     | none => true
     | some names => names.contains s.name) &&
    (match src.languages with
     | none => true
     | some langs => langs.contains t.language) &&
    (decide (src.min_confidence > 0) → decide (t.confidence ≥ src.min_confidence)) &&
    (decide (src.min_language_confidence > 0) →
      decide (t.language_confidence ≥ src.min_language_confidence)) &&
    (decide (src.min_length > 0) → decide (t.text_length ≥ src.min_length)))

/-- The embeddings query for one setter name, with the optional source-text
filtering. -/
noncomputable def embQueryRows (db : Database) (ctx : List CtxRow) (model_name : String)
    (src : Option SourceArgs) :
    List (CtxRow × ItemDataRow × SetterRow × EmbeddingRow) :=
  match src with
  | none => embJoinRows db ctx model_name
  | some s => (embJoinRows db ctx model_name).filter (srcTextKeep db s)

/-- One row of the unique-embeddings CTE. -/
structure EmbRow where
  item_id : Nat
  sha256 : String
  emb_id : Nat
  embedding : List ℝ
  data_type : String
  confidence : Option ℝ
  language_confidence : Option ℝ

/-- `GROUP BY (item_id, emb_id)`: keep one row per key. -/
def dedupByKey : List EmbRow → List EmbRow
  | [] => []
  | r :: rs =>
    r :: dedupByKey (rs.filter (fun q =>
      !(q.item_id == r.item_id && q.emb_id == r.emb_id)))
  termination_by l => l.length
  decreasing_by
    simp only [List.length_cons]
    exact Nat.lt_succ_of_le (List.length_filter_le _ _)

/-- Project a joined row to a unique-embeddings row, joining `items` on
`items.id == context.item_id` for `sha256`.  The `confidence` /
`language_confidence` columns are carried (coalesced later) from the joined
source text when the corresponding weight is nonzero, and are `NULL` on the
image-embeddings side. -/
def projectRows (db : Database)
    (rows : List (CtxRow × ItemDataRow × SetterRow × EmbeddingRow))
    (confOf langConfOf : ItemDataRow → Option ℝ) : List EmbRow :=
  rows.flatMap (fun r =>
    (db.items.filter (fun i => i.id == r.1.item_id)).map (fun i =>
      ⟨r.1.item_id, i.sha256, r.2.2.2.id, r.2.2.2.embedding,
        r.2.1.data_type, confOf r.2.1, langConfOf r.2.1⟩))

/-- The source-text confidence attached to an `item_data` row (the
`extracted_text.confidence` of its `source_id`), when present. -/
def srcConfidence (db : Database) (d : ItemDataRow) : Option ℝ :=
  (db.extracted_text.find? (fun t => some t.id == d.source_id)).map
    (fun t => t.confidence)

/-- The source-text language confidence attached to an `item_data` row. -/
def srcLanguageConfidence (db : Database) (d : ItemDataRow) : Option ℝ :=
  (db.extracted_text.find? (fun t => some t.id == d.source_id)).map
    (fun t => t.language_confidence)

/-- The unique-embeddings CTE: the (possibly source-filtered) embeddings
query for the effective model name, grouped by `(item_id, emb_id)`; with
`clip_xmodal` the effective name is `"t" + setter_name` and the image
embeddings for `setter_name` (no source filter, `NULL` confidences) are
unioned in.  SQL `UNION`'s elimination of exactly-duplicate rows is
immaterial to the row-membership properties stated below and is not
modelled. -/
noncomputable def uniqueEmbRows (db : Database) (ctx : List CtxRow) (args : SimilarityArgs) :
    List EmbRow :=
  let model_name :=
    if args.clip_xmodal then "t" ++ args.setter_name else args.setter_name
  let confOf : ItemDataRow → Option ℝ :=
    match args.src_text with
    | some src => if src.confidence_weight ≠ 0 then srcConfidence db else fun _ => none
    | none => fun _ => none
  let langConfOf : ItemDataRow → Option ℝ :=
    match args.src_text with
    | some src =>
      if src.language_confidence_weight ≠ 0 then srcLanguageConfidence db
      else fun _ => none
    | none => fun _ => none
  let textUnq :=
    dedupByKey (projectRows db (embQueryRows db ctx model_name args.src_text)
      confOf langConfOf)
  if args.clip_xmodal then
    textUnq ++
      dedupByKey (projectRows db (embQueryRows db ctx args.setter_name none)
        (fun _ => none) (fun _ => none))
  else textUnq

/-- The self-join of the unique-embeddings CTE with
`main.sha256 == target`, `other.sha256 != target`, and the cross-modal
data-type gates. -/
noncomputable def distancePairs (db : Database) (ctx : List CtxRow) (args : SimilarityArgs) :
    List (EmbRow × EmbRow) :=
  let unq := uniqueEmbRows db ctx args
  let base := (unq.product unq).filter (fun p =>
    p.1.sha256 == args.target && p.2.sha256 != args.target)
  let base :=
    if args.clip_xmodal && !args.xmodal_i2i then
      base.filter (fun p =>
        p.1.data_type != "clip" || p.2.data_type != "clip")
    else base
  if args.clip_xmodal && !args.xmodal_t2t then
    base.filter (fun p =>
      p.1.data_type != "text-embedding" || p.2.data_type != "text-embedding")
  else base

/-- Modelled from the spec: `vec_distance_L2` of the vector extension
(external to the repository): the Euclidean distance. -/
noncomputable def vec_distance_L2 (a b : List ℝ) : ℝ :=
  Real.sqrt ((List.zipWith (fun x y => (x - y) ^ 2) a b).sum)

/-- Modelled from the spec: `vec_distance_cosine` of the vector extension
(external to the repository): one minus the cosine similarity. -/
noncomputable def vec_distance_cosine (a b : List ℝ) : ℝ :=
  1 - (List.zipWith (fun x y => x * y) a b).sum /
    (Real.sqrt ((a.map (fun x => x ^ 2)).sum) *
      Real.sqrt ((b.map (fun x => x ^ 2)).sum))

/-- `vec_distance_L2 if args.distance_function == "L2" else vec_distance_cosine`. -/
noncomputable def distanceFunc (name : String) : List ℝ → List ℝ → ℝ :=
  if name = "L2" then vec_distance_L2 else vec_distance_cosine

/-- The pairwise distance between the `main` and `other` embeddings. -/
noncomputable def pairDistance (args : SimilarityArgs) (p : EmbRow × EmbRow) : ℝ :=
  distanceFunc args.distance_function p.1.embedding p.2.embedding

/-- `POW(COALESCE(main.confidence, 1) * COALESCE(other.confidence, 1),
confidence_weight)`. -/
noncomputable def confWeightClause (src : SourceArgs) (p : EmbRow × EmbRow) : ℝ :=
  ((p.1.confidence.getD 1) * (p.2.confidence.getD 1)) ^ src.confidence_weight

/-- `POW(COALESCE(other.language_confidence, 1) *
COALESCE(main.language_confidence, 1), language_confidence_weight)`. -/
noncomputable def langConfWeightClause (src : SourceArgs) (p : EmbRow × EmbRow) : ℝ :=
  ((p.2.language_confidence.getD 1) * (p.1.language_confidence.getD 1)) ^
    src.language_confidence_weight

/-- `MAX` over a SQL group (groups are nonempty; the empty case is a dummy). -/
noncomputable def maxListR : List ℝ → ℝ
  | [] => 0
  | x :: xs => xs.foldl max x

/-- `MIN` over a SQL group (groups are nonempty; the empty case is a dummy). -/
noncomputable def minListR : List ℝ → ℝ
  | [] => 0
  | x :: xs => xs.foldl min x

/-- The unweighted `rank_column`: `MAX`/`AVG`/`MIN` of the distances per
`distance_aggregation` (any other value raises in the source and cannot
occur for the pydantic `Literal` type; it is folded into the `MIN` arm). -/
noncomputable def aggDistance (agg : String) (ds : List ℝ) : ℝ :=
  if agg = "MAX" then maxListR ds
  else if agg = "AVG" then ds.sum / ds.length
  else minListR ds

/-- The aggregated `rank_column` over one `other.item_id` group of joined
pairs: the `MIN`/`MAX`/`AVG` aggregation, overridden by the weighted mean
`SUM(distance * weights) / SUM(weights)` whenever `src_text` is present and
at least one weight exponent is nonzero. -/
noncomputable def rankColumn (args : SimilarityArgs)
    (pairs : List (EmbRow × EmbRow)) : ℝ :=
  let base := aggDistance args.distance_aggregation (pairs.map (pairDistance args))
  match args.src_text with
  | none => base
  | some src =>
    if src.confidence_weight ≠ 0 ∧ src.language_confidence_weight ≠ 0 then
      (pairs.map (fun p => pairDistance args p *
        (confWeightClause src p * langConfWeightClause src p))).sum /
        (pairs.map (fun p => confWeightClause src p * langConfWeightClause src p)).sum
    else if src.confidence_weight ≠ 0 then
      (pairs.map (fun p => pairDistance args p * confWeightClause src p)).sum /
        (pairs.map (fun p => confWeightClause src p)).sum
    else if src.language_confidence_weight ≠ 0 then
      (pairs.map (fun p => pairDistance args p * langConfWeightClause src p)).sum /
        (pairs.map (fun p => langConfWeightClause src p)).sum
    else base

/-- The weight of the claim: `POW(c_main*c_other, α) * POW(lc_main*lc_other, β)`
with `NULL`s coalesced to 1. -/
noncomputable def claimWeight (src : SourceArgs) (p : EmbRow × EmbRow) : ℝ :=
  ((p.1.confidence.getD 1) * (p.2.confidence.getD 1)) ^ src.confidence_weight *
    ((p.1.language_confidence.getD 1) * (p.2.language_confidence.getD 1)) ^
      src.language_confidence_weight

lemma langConfWeightClause_eq (src : SourceArgs) (p : EmbRow × EmbRow) :
    langConfWeightClause src p =
      ((p.1.language_confidence.getD 1) * (p.2.language_confidence.getD 1)) ^
        src.language_confidence_weight := by
  unfold langConfWeightClause
  rw [mul_comm]

lemma rankColumn_weighted_formula (args : SimilarityArgs) (src : SourceArgs)
    (hsrc : args.src_text = some src)
    (hw : src.confidence_weight ≠ 0 ∨ src.language_confidence_weight ≠ 0)
    (pairs : List (EmbRow × EmbRow)) :
    rankColumn args pairs =
      (pairs.map (fun p => pairDistance args p * claimWeight src p)).sum /
        (pairs.map (fun p => claimWeight src p)).sum := by
  simp only [rankColumn, hsrc]
  by_cases hα : src.confidence_weight ≠ 0 <;>
    by_cases hβ : src.language_confidence_weight ≠ 0
  · rw [if_pos ⟨hα, hβ⟩]
    have hwfun : ∀ p : EmbRow × EmbRow,
        confWeightClause src p * langConfWeightClause src p = claimWeight src p := by
      intro p
      rw [langConfWeightClause_eq]
      rfl
    simp only [hwfun]
  · rw [if_neg (fun h => hβ h.2), if_pos hα]
    have h0 : src.language_confidence_weight = 0 := not_not.mp hβ
    have hwfun : ∀ p : EmbRow × EmbRow,
        confWeightClause src p = claimWeight src p := by
      intro p
      unfold claimWeight
      rw [h0, Real.rpow_zero, mul_one]
      rfl
    simp only [hwfun]
  · rw [if_neg (fun h => hα h.1), if_neg hα, if_pos hβ]
    have h0 : src.confidence_weight = 0 := not_not.mp hα
    have hwfun : ∀ p : EmbRow × EmbRow,
        langConfWeightClause src p = claimWeight src p := by
      intro p
      rw [langConfWeightClause_eq]
      unfold claimWeight
      rw [h0, Real.rpow_zero, one_mul]
    simp only [hwfun]
  · rcases hw with h | h
    · exact absurd h hα
    · exact absurd h hβ

/-- C5: with `src_text` present and at least one weight exponent nonzero,
the per-item aggregated distance is the weighted mean `Σ(d·w)/Σw` with
`w = POW(COALESCE(c_main,1)*COALESCE(c_other,1), α) *
POW(COALESCE(lc_main,1)*COALESCE(lc_other,1), β)`, and the
`distance_aggregation` setting has no effect on the result. -/
theorem rankColumn_weighted_spec (args : SimilarityArgs) (src : SourceArgs)
    (hsrc : args.src_text = some src)
    (hw : src.confidence_weight ≠ 0 ∨ src.language_confidence_weight ≠ 0)
    (pairs : List (EmbRow × EmbRow)) :
    rankColumn args pairs =
      (pairs.map (fun p => pairDistance args p * claimWeight src p)).sum /
        (pairs.map (fun p => claimWeight src p)).sum ∧
      ∀ agg, rankColumn { args with distance_aggregation := agg } pairs =
        rankColumn args pairs := by
  refine ⟨rankColumn_weighted_formula args src hsrc hw pairs, fun agg => ?_⟩
  have hsrc' : ({ args with distance_aggregation := agg } : SimilarityArgs).src_text
      = some src := hsrc
  have hpd : pairDistance { args with distance_aggregation := agg } = pairDistance args :=
    rfl
  rw [rankColumn_weighted_formula _ src hsrc' hw pairs, hpd,
    ← rankColumn_weighted_formula args src hsrc hw pairs]

/-- The `SourceArgs` used by the witnesses: `α = 1`, `β = 0`. -/
noncomputable def srcW : SourceArgs := ⟨none, none, 0, 0, 0, 1, 0⟩

/-- The `SimilarityArgs` used by the witnesses: `src_text = srcW`,
`distance_aggregation = "MIN"`. -/
noncomputable def argsW : SimilarityArgs :=
  ⟨"t", "s", "L2", "MIN", some srcW, false, true, false⟩

/-- Witness for `rankColumn_weighted_spec` at `argsW` with no pairs. -/
theorem rankColumn_weighted_spec_witness :
    argsW.src_text = some srcW ∧
      (srcW.confidence_weight ≠ 0 ∨ srcW.language_confidence_weight ≠ 0) ∧
      (rankColumn argsW [] =
        (([] : List (EmbRow × EmbRow)).map (fun p =>
          pairDistance argsW p * claimWeight srcW p)).sum /
          (([] : List (EmbRow × EmbRow)).map (fun p => claimWeight srcW p)).sum ∧
        ∀ agg, rankColumn { argsW with distance_aggregation := agg } [] =
          rankColumn argsW []) :=
  ⟨rfl, Or.inl one_ne_zero,
    rankColumn_weighted_spec argsW srcW rfl (Or.inl one_ne_zero) []⟩

/-- C6: with `src_text` present, nonzero weight exponents, and every
contributing (coalesced) source-text confidence and language confidence
equal to 1, the weighted per-item distance equals the unweighted `AVG`
aggregation of the pairwise distances. -/
theorem rankColumn_conf_one_avg (args : SimilarityArgs) (src : SourceArgs)
    (hsrc : args.src_text = some src)
    (hw : src.confidence_weight ≠ 0 ∨ src.language_confidence_weight ≠ 0)
    (pairs : List (EmbRow × EmbRow))
    (hconf : ∀ p ∈ pairs, p.1.confidence.getD 1 = 1 ∧ p.2.confidence.getD 1 = 1 ∧
      p.1.language_confidence.getD 1 = 1 ∧ p.2.language_confidence.getD 1 = 1) :
    rankColumn args pairs =
      aggDistance "AVG" (pairs.map (pairDistance args)) := by
  rw [rankColumn_weighted_formula args src hsrc hw pairs]
  have hwone : ∀ p ∈ pairs, claimWeight src p = 1 := by
    intro p hp
    obtain ⟨h1, h2, h3, h4⟩ := hconf p hp
    unfold claimWeight
    rw [h1, h2, h3, h4, one_mul, Real.one_rpow, Real.one_rpow, one_mul]
  have hnum : pairs.map (fun p => pairDistance args p * claimWeight src p)
      = pairs.map (pairDistance args) := by
    apply List.map_congr_left
    intro p hp
    rw [hwone p hp, mul_one]
  have hden : (pairs.map (fun p => claimWeight src p)).sum = (pairs.length : ℝ) := by
    have hc : pairs.map (fun p => claimWeight src p) =
        pairs.map (fun _ => (1 : ℝ)) := List.map_congr_left hwone
    rw [hc]
    simp
  rw [hnum, hden]
  unfold aggDistance
  rw [if_neg (by decide), if_pos rfl, List.length_map]

/-- Witness for `rankColumn_conf_one_avg` at `argsW` with no pairs. -/
theorem rankColumn_conf_one_avg_witness :
    argsW.src_text = some srcW ∧
      (srcW.confidence_weight ≠ 0 ∨ srcW.language_confidence_weight ≠ 0) ∧
      (∀ p ∈ ([] : List (EmbRow × EmbRow)),
        p.1.confidence.getD 1 = 1 ∧ p.2.confidence.getD 1 = 1 ∧
          p.1.language_confidence.getD 1 = 1 ∧
          p.2.language_confidence.getD 1 = 1) ∧
      rankColumn argsW [] =
        aggDistance "AVG" (([] : List (EmbRow × EmbRow)).map (pairDistance argsW)) :=
  ⟨rfl, Or.inl one_ne_zero, fun p hp => absurd hp (List.not_mem_nil p),
    rankColumn_conf_one_avg argsW srcW rfl (Or.inl one_ne_zero) []
      (fun p hp => absurd hp (List.not_mem_nil p))⟩

lemma dedupByKey_subset (l : List EmbRow) : ∀ r ∈ dedupByKey l, r ∈ l := by
  have H : ∀ n (l : List EmbRow), l.length ≤ n → ∀ r ∈ dedupByKey l, r ∈ l := by
    intro n
    induction n with
    | zero =>
      intro l hl r hr
      cases l with
      | nil => simp [dedupByKey] at hr
      | cons a as => simp at hl
    | succ n ih =>
      intro l hl r hr
      cases l with
      | nil => simp [dedupByKey] at hr
      | cons a as =>
        rw [dedupByKey] at hr
        rcases List.mem_cons.mp hr with rfl | hr'
        · exact List.mem_cons_self _ _
        · have hlen : (as.filter (fun q =>
              !(q.item_id == a.item_id && q.emb_id == a.emb_id))).length ≤ n := by
            have := List.length_filter_le (fun q =>
              !(q.item_id == a.item_id && q.emb_id == a.emb_id)) as
            simp only [List.length_cons] at hl
            omega
          exact List.mem_cons_of_mem _
            (List.mem_of_mem_filter (ih _ hlen r hr'))
  exact H l.length l le_rfl

lemma mem_embQueryRows_sub {db : Database} {ctx : List CtxRow}
    {model_name : String} {src : Option SourceArgs}
    {row : CtxRow × ItemDataRow × SetterRow × EmbeddingRow}
    (h : row ∈ embQueryRows db ctx model_name src) :
    row ∈ embJoinRows db ctx model_name := by
  unfold embQueryRows at h
  cases src with
  | none => exact h
  | some s => exact List.mem_of_mem_filter h

lemma mem_embJoinRows {db : Database} {ctx : List CtxRow} {model_name : String}
    {row : CtxRow × ItemDataRow × SetterRow × EmbeddingRow}
    (h : row ∈ embJoinRows db ctx model_name) :
    row.2.1 ∈ db.item_data ∧ row.2.2.1 ∈ db.setters ∧
      row.2.2.1.id = row.2.1.setter_id ∧ row.2.2.1.name = model_name ∧
      row.2.2.2.id = row.2.1.id := by
  unfold embJoinRows at h
  obtain ⟨c, hc, h⟩ := List.mem_flatMap.mp h
  obtain ⟨d, hd, h⟩ := List.mem_flatMap.mp h
  obtain ⟨s, hs, h⟩ := List.mem_flatMap.mp h
  obtain ⟨e, he, heq⟩ := List.mem_map.mp h
  subst heq
  have hd' := List.mem_filter.mp hd
  have hs' := List.mem_filter.mp hs
  have he' := List.mem_filter.mp he
  simp only [Bool.and_eq_true, beq_iff_eq] at hd' hs' he'
  exact ⟨hd'.1, hs'.1, hs'.2.1, hs'.2.2, he'.2⟩

lemma mem_projectRows {db : Database}
    {rows : List (CtxRow × ItemDataRow × SetterRow × EmbeddingRow)}
    {confOf langConfOf : ItemDataRow → Option ℝ} {r : EmbRow}
    (h : r ∈ projectRows db rows confOf langConfOf) :
    ∃ row ∈ rows, r.emb_id = row.2.2.2.id ∧ r.data_type = row.2.1.data_type := by
  unfold projectRows at h
  obtain ⟨row, hrow, h⟩ := List.mem_flatMap.mp h
  obtain ⟨i, hi, heq⟩ := List.mem_map.mp h
  exact ⟨row, hrow, by rw [← heq], by rw [← heq]⟩

/-- The embedding row `embId` was produced by a setter named `name`. -/
def embBySetterNamed (db : Database) (embId : Nat) (name : String) : Prop :=
  ∃ d ∈ db.item_data, ∃ s ∈ db.setters,
    d.id = embId ∧ s.id = d.setter_id ∧ s.name = name

lemma mem_uniqueEmbRows_setter {db : Database} {ctx : List CtxRow}
    {args : SimilarityArgs} {r : EmbRow} (hx : args.clip_xmodal = false)
    (h : r ∈ uniqueEmbRows db ctx args) :
    embBySetterNamed db r.emb_id args.setter_name := by
  simp only [uniqueEmbRows, hx, Bool.false_eq_true, if_false] at h
  have h1 := dedupByKey_subset _ r h
  obtain ⟨row, hrow, hemb, -⟩ := mem_projectRows h1
  have hjoin := mem_embJoinRows (mem_embQueryRows_sub hrow)
  refine ⟨row.2.1, hjoin.1, row.2.2.1, hjoin.2.1, ?_, hjoin.2.2.1, hjoin.2.2.2.1⟩
  rw [hemb]
  exact hjoin.2.2.2.2.symm

lemma mem_distancePairs_unq {db : Database} {ctx : List CtxRow}
    {args : SimilarityArgs} {p : EmbRow × EmbRow}
    (h : p ∈ distancePairs db ctx args) :
    p.1 ∈ uniqueEmbRows db ctx args ∧ p.2 ∈ uniqueEmbRows db ctx args := by
  obtain ⟨p1, p2⟩ := p
  simp only [distancePairs] at h
  have hbase : (p1, p2) ∈
      ((uniqueEmbRows db ctx args).product (uniqueEmbRows db ctx args)).filter
        (fun p => p.1.sha256 == args.target && p.2.sha256 != args.target) := by
    split at h
    · replace h := List.mem_of_mem_filter h
      split at h
      · exact List.mem_of_mem_filter h
      · exact h
    · split at h
      · exact List.mem_of_mem_filter h
      · exact h
  have hprod := List.mem_of_mem_filter hbase
  exact List.mem_product.mp hprod

/-- C7: pair gating in the similarity self-join.  Without `clip_xmodal`,
both members of every contributing pair were produced by the named setter;
with `clip_xmodal` and `xmodal_t2t = False`, no pair has both members of
data type `text-embedding`; with `clip_xmodal` and `xmodal_i2i = False`, no
pair has both members of data type `clip`. -/
theorem similarTo_pair_gating (db : Database) (ctx : List CtxRow)
    (args : SimilarityArgs) :
    (args.clip_xmodal = false → ∀ p ∈ distancePairs db ctx args,
      embBySetterNamed db p.1.emb_id args.setter_name ∧
        embBySetterNamed db p.2.emb_id args.setter_name) ∧
      (args.clip_xmodal = true → args.xmodal_t2t = false →
        ∀ p ∈ distancePairs db ctx args,
          ¬(p.1.data_type = "text-embedding" ∧
            p.2.data_type = "text-embedding")) ∧
      (args.clip_xmodal = true → args.xmodal_i2i = false →
        ∀ p ∈ distancePairs db ctx args,
          ¬(p.1.data_type = "clip" ∧ p.2.data_type = "clip")) := by
  refine ⟨?_, ?_, ?_⟩
  · intro hx p hp
    obtain ⟨h1, h2⟩ := mem_distancePairs_unq hp
    exact ⟨mem_uniqueEmbRows_setter hx h1, mem_uniqueEmbRows_setter hx h2⟩
  · intro hx ht p hp
    simp only [distancePairs, hx, ht, Bool.not_false, Bool.and_self, if_true] at hp
    have hft := (List.mem_filter.mp hp).2
    simp only [Bool.or_eq_true, bne_iff_ne] at hft
    intro hcon
    rcases hft with hft | hft
    · exact hft hcon.1
    · exact hft hcon.2
  · intro hx hi p hp
    simp only [distancePairs, hx, hi, Bool.not_false, Bool.and_self, if_true] at hp
    have hpi : p ∈ (((uniqueEmbRows db ctx args).product
        (uniqueEmbRows db ctx args)).filter
          (fun p => p.1.sha256 == args.target && p.2.sha256 != args.target)).filter
        (fun p => p.1.data_type != "clip" || p.2.data_type != "clip") := by
      split at hp
      · exact List.mem_of_mem_filter hp
      · exact hp
    have hfi := (List.mem_filter.mp hpi).2
    simp only [Bool.or_eq_true, bne_iff_ne] at hfi
    intro hcon
    rcases hfi with hfi | hfi
    · exact hfi hcon.1
    · exact hfi hcon.2

/-- The empty database used by the gating witness. -/
def dbW : Database := ⟨[], [], [], [], []⟩

/-- Witness for `similarTo_pair_gating` at the empty database and `argsW`. -/
theorem similarTo_pair_gating_witness :
    (argsW.clip_xmodal = false → ∀ p ∈ distancePairs dbW [] argsW,
      embBySetterNamed dbW p.1.emb_id argsW.setter_name ∧
        embBySetterNamed dbW p.2.emb_id argsW.setter_name) ∧
      (argsW.clip_xmodal = true → argsW.xmodal_t2t = false →
        ∀ p ∈ distancePairs dbW [] argsW,
          ¬(p.1.data_type = "text-embedding" ∧
            p.2.data_type = "text-embedding")) ∧
      (argsW.clip_xmodal = true → argsW.xmodal_i2i = false →
        ∀ p ∈ distancePairs dbW [] argsW,
          ¬(p.1.data_type = "clip" ∧ p.2.data_type = "clip")) :=
  similarTo_pair_gating dbW [] argsW

end Similarity

namespace SearchFacade

/-! ## `src/panoptikon/api/routers/search.py` -/

/-- A search result row (the fields relevant to counting: the file). -/
structure FileResult where
  file_id : Nat
  path : String
deriving DecidableEq, Repr

/-- The response model `{count, results}`. -/
structure FileSearchResultModel where
  count : Nat
  results : List FileResult
deriving DecidableEq, Repr

/-- `process_results`: an empty row list yields `count=0`; otherwise the
count is taken from the first row's count column. -/
def process_results (results : List (FileResult × Nat)) : FileSearchResultModel :=
  match results with
  | [] => ⟨0, []⟩
  | r0 :: rest => ⟨r0.2, (r0 :: rest).map (fun r => r.1)⟩

/-- Modelled from the spec: `search_files` of `panoptikon.db.search` (module
not under `src/`).  `matched` is the full result set of the query over the
fixed store; the final select pages it with
`LIMIT page_size OFFSET page*page_size`; with `count=true` each returned
row carries `COUNT(DISTINCT file_id)` over the whole result set, and with
`count=false` the count column is not computed (0 here). -/
def searchFilesModel (matched : List FileResult) (count : Bool)
    (page page_size : Nat) : List (FileResult × Nat) :=
  let pageRows := (matched.drop (page * page_size)).take page_size
  let total := (matched.map (fun r => r.file_id)).dedup.length
  pageRows.map (fun r => (r, if count then total else 0))

/-- C1 (failing input): a store with exactly one matching file, page size 1.
Page 0 with `count=true` returns count 1, and the union of all
`count=false` pages holds exactly one distinct file id (pages ≥ 1 are
empty); yet page 1 — beyond the last non-empty page — returns `count=0`
through `process_results`, contradicting the claim (and the route's own
documentation) that the count is independent of the requested page. -/
theorem count_lost_beyond_last_page :
    process_results (searchFilesModel [⟨1, "/a.jpg"⟩] true 0 1) =
        ⟨1, [⟨1, "/a.jpg"⟩]⟩ ∧
      searchFilesModel [⟨1, "/a.jpg"⟩] false 1 1 = [] ∧
      (((searchFilesModel [⟨1, "/a.jpg"⟩] false 0 1).map
          (fun r => r.1.file_id)).dedup.length = 1) ∧
      process_results (searchFilesModel [⟨1, "/a.jpg"⟩] true 1 1) = ⟨0, []⟩ ∧
      (0 : Nat) ≠ 1 := by
  refine ⟨by decide, by decide, by decide, by decide, by decide⟩

end SearchFacade

namespace Jobs

/-! ## `src/panoptikon/api/routers/jobs/manager.py` -/

/-- A queued job (the field cancellation reads). -/
structure Job where
  queue_id : Nat
deriving DecidableEq, Repr

/-- The lock/process events a `JobManager` method performs, in program
order.  `threading.Lock` is not reentrant: executing `acquire` while the
same thread already holds the lock blocks forever. -/
inductive Ev
  | acquire
  | release
  | terminate
  | join
deriving DecidableEq, Repr

/-- Run an event list on a single thread, tracking whether the thread holds
the manager's lock; `none` models blocking forever on re-acquiring the
non-reentrant lock. -/
def runEvents : Bool → List Ev → Option Bool
  | held, [] => some held
  | held, Ev.acquire :: rest => if held then none else runEvents true rest
  | _, Ev.release :: rest => runEvents false rest
  | held, _ :: rest => runEvents held rest

/-- Whether some `process.join()` in the event list executes while the lock
is held. -/
def joinsUnderLock : Bool → List Ev → Bool
  | _, [] => false
  | held, Ev.join :: rest => held || joinsUnderLock held rest
  | _, Ev.acquire :: rest => joinsUnderLock true rest
  | _, Ev.release :: rest => joinsUnderLock false rest
  | held, _ :: rest => joinsUnderLock held rest

/-- The events of `JobManager.cancel_running_job`: `with self.lock:` then,
if a job is running, `process.terminate()` and `process.join()` inside the
locked region. -/
def cancel_running_job_events (running : Option Job) : List Ev :=
  [Ev.acquire] ++
    (match running with
     | some _ => [Ev.terminate, Ev.join]
     | none => []) ++
    [Ev.release]

/-- The events of `JobManager.cancel_queued_jobs(queue_ids)`:
`with self.lock:` then, for each id equal to the running job's id, an
inline call to `cancel_running_job` (which re-enters `with self.lock:`);
removing a merely queued job performs no lock or process event. -/
def cancel_queued_jobs_events (running : Option Job) (queue_ids : List Nat) :
    List Ev :=
  [Ev.acquire] ++
    (queue_ids.flatMap (fun qid =>
      if running.any (fun rj => rj.queue_id == qid) then
        cancel_running_job_events running
      else [])) ++
    [Ev.release]

/-- C9 (failing input): with job 7 running, `cancel_queued_jobs([7])`
re-acquires the non-reentrant lock inside the locked region and blocks
forever, and `cancel_running_job` joins the worker process while holding
the lock; with no matching id the call completes.  This contradicts both
parts of the claim: the mutex is held across a process join, and the
cancel call never completes (so it cannot return the cancelled id). -/
theorem cancel_running_id_deadlock :
    runEvents false (cancel_queued_jobs_events (some ⟨7⟩) [7]) = none ∧
      joinsUnderLock false (cancel_running_job_events (some ⟨7⟩)) = true ∧
      runEvents false (cancel_queued_jobs_events (some ⟨7⟩) []) = some false ∧
      runEvents false (cancel_running_job_events (some ⟨7⟩)) = some false := by
  refine ⟨by decide, by decide, by decide, by decide⟩

end Jobs

end Panoptikon
